import Mathlib

/-!
Verification of the InstrumentKit core specification.

The repository snapshot contains only the documentation of the core
(`doc/source/apiref/instrument.rst`, `doc/source/devguide/testing.rst`,
`doc/source/devguide/design_philosophy.rst`, the `util_fns` API reference and
the coding-style guide); the Python modules `instruments/util_fns.py`,
`instruments/abstract_instruments/comm/*` and `instruments/tests/__init__.py`
that implement the Communicator, the property factories, `ProxyList` and
`expected_protocol` are not part of the snapshot.  Every definition below that
embeds one of those missing functions is therefore modelled from the spec and
carries a doc comment saying so.

Machine-integer overflow plays no role in this code base (Python integers are
unbounded); numeric wire payloads are exact decimals, modelled as an integer
mantissa with a power-of-ten exponent.
-/

/-- Modelled from the spec (section 7 of spec.md): the error taxonomy of the
missing core modules. -/
inductive IKError where
  | connectionError
  | transportError
  | timeoutError
  | framingError
  | decodeError
  | validationError
  | indexError
  deriving DecidableEq, Repr

/-- Modelled from the spec: the observable state of one Communicator as the
Protocol Test Harness (`expected_protocol`, missing from the snapshot) records
it: the ordered list of outbound lines sent so far, and the remaining scripted
inbound lines. -/
structure CommState where
  sent : List String
  script : List String
  deriving DecidableEq, Repr

/-- Modelled from the spec: `sendcmd` at the line level — fire-and-forget, the
line is appended to the outbound transcript. -/
def sendcmdLine (line : String) (s : CommState) : CommState :=
  { s with sent := s.sent ++ [line] }

/-- Modelled from the spec: `query` at the line level — send the line, then
read one scripted response; an exhausted script means no terminator ever
arrives, i.e. a timeout. -/
def queryLine (line : String) (s : CommState) : Option String × CommState :=
  match s.script with
  | [] => (none, sendcmdLine line s)
  | r :: rest => (some r, { sent := s.sent ++ [line], script := rest })

/-! ### Decimal wire text

The property factories exchange numeric payloads as decimal ASCII text.  The
missing code uses Python `float`/`str` for this; the spec (section 4.4)
requires the conversions to be exact, so the model uses exact decimals:
`Dec m e` denotes the rational `m / 10 ^ e`. -/

/-- An exact decimal number: mantissa `m`, denominator exponent `e`,
denoting `m / 10 ^ e`. -/
structure Dec where
  m : Int
  e : Nat
  deriving DecidableEq, Repr

/-- `Dec.le a b` decides `a ≤ b` by cross-multiplying with the powers of ten;
no rounding is involved. -/
def Dec.le (a b : Dec) : Bool :=
  a.m * (10 ^ b.e : Nat) ≤ b.m * (10 ^ a.e : Nat)

/-- The character for a single decimal digit. -/
def digitChar (d : Nat) : Char := Char.ofNat (48 + d)

/-- Inverse of `digitChar`: recognise an ASCII digit. -/
def charDigit (c : Char) : Option Nat :=
  if 48 ≤ c.toNat ∧ c.toNat ≤ 57 then some (c.toNat - 48) else none

/-- Little-endian decimal digits of `n`, with explicit fuel (`[]` for zero). -/
def natDigitsRev : Nat → Nat → List Nat
  | 0, _ => []
  | fuel + 1, n => if n = 0 then [] else n % 10 :: natDigitsRev fuel (n / 10)

/-- Decimal text of a natural number, most significant digit first. -/
def natToChars (n : Nat) : List Char :=
  if n = 0 then ['0'] else ((natDigitsRev n n).reverse).map digitChar

/-- Decimal text of a natural number as a `String`. -/
def natToString (n : Nat) : String := String.mk (natToChars n)

/-- Accumulator pass of the decimal parser. -/
def parseNatAux (acc : Nat) : List Char → Option Nat
  | [] => some acc
  | c :: cs =>
    match charDigit c with
    | some d => parseNatAux (acc * 10 + d) cs
    | none => none

/-- Parse a non-empty all-digit string as a natural number. -/
def parseNat (cs : List Char) : Option Nat :=
  match cs with
  | [] => none
  | _ => parseNatAux 0 cs

/-- Split a character list at the first occurrence of `c`; `none` when `c`
does not occur. -/
def splitOnFirst (c : Char) : List Char → Option (List Char × List Char)
  | [] => none
  | x :: xs =>
    if x = c then some ([], xs)
    else (splitOnFirst c xs).map (fun p => (x :: p.1, p.2))

/-- Left-pad with `'0'` to length `k`. -/
def padZeros (k : Nat) (cs : List Char) : List Char :=
  List.replicate (k - cs.length) '0' ++ cs

/-- Modelled from the spec: format an exact decimal as the wire text the set
format template splices in (`4.0`, `3.2`, `-0.5`, integers without a point). -/
def Dec.format (d : Dec) : List Char :=
  let sign : List Char := if d.m < 0 then ['-'] else []
  let n := d.m.natAbs
  if d.e = 0 then sign ++ natToChars n
  else
    sign ++ natToChars (n / 10 ^ d.e) ++
      '.' :: padZeros d.e (natToChars (n % 10 ^ d.e))

/-- `Dec.format` packaged as a `String`. -/
def Dec.formatString (d : Dec) : String := String.mk d.format

/-- Negate an exact decimal. -/
def Dec.neg (d : Dec) : Dec := ⟨-d.m, d.e⟩

/-- Parse an unsigned decimal numeral (optional single point). -/
def parseUDec (cs : List Char) : Option Dec :=
  match splitOnFirst '.' cs with
  | none => (parseNat cs).map (fun n => ⟨(n : Int), 0⟩)
  | some (a, b) =>
    match parseNat a, parseNat b with
    | some ia, some fb => some ⟨(ia * 10 ^ b.length + fb : Nat), b.length⟩
    | _, _ => none

/-- Modelled from the spec: parse the numeric part of a response, as the
missing `split_unit_str`/`float` pipeline does; exact, no truncation. -/
def parseDec (cs : List Char) : Option Dec :=
  match cs with
  | '-' :: rest => (parseUDec rest).map Dec.neg
  | _ => parseUDec cs
theorem charDigit_digitChar {d : Nat} (h : d < 10) : charDigit (digitChar d) = some d := by
  interval_cases d <;> decide

theorem digitChar_ne_dot {d : Nat} (h : d < 10) : digitChar d ≠ '.' := by
  interval_cases d <;> decide

theorem digitChar_ne_dash {d : Nat} (h : d < 10) : digitChar d ≠ '-' := by
  interval_cases d <;> decide

theorem natDigitsRev_lt {fuel n d : Nat} (h : d ∈ natDigitsRev fuel n) : d < 10 := by
  induction fuel generalizing n with
  | zero => simp [natDigitsRev] at h
  | succ fuel ih =>
    rw [natDigitsRev] at h
    by_cases hn : n = 0
    · simp [hn] at h
    · rw [if_neg hn] at h
      rcases List.mem_cons.mp h with h1 | h2
      · subst h1; exact Nat.mod_lt _ (by norm_num)
      · exact ih h2

theorem mem_natToChars {n : Nat} {c : Char} (h : c ∈ natToChars n) :
    ∃ d, d < 10 ∧ c = digitChar d := by
  rw [natToChars] at h
  by_cases hn : n = 0
  · rw [if_pos hn] at h
    simp at h
    exact ⟨0, by norm_num, by simp [h]; rfl⟩
  · rw [if_neg hn] at h
    rcases List.mem_map.mp h with ⟨d, hd, rfl⟩
    exact ⟨d, natDigitsRev_lt (List.mem_reverse.mp hd), rfl⟩

theorem natToChars_ne_nil (n : Nat) : natToChars n ≠ [] := by
  rw [natToChars]
  by_cases hn : n = 0
  · simp [hn]
  · rw [if_neg hn]
    obtain ⟨k, rfl⟩ := Nat.exists_eq_succ_of_ne_zero hn
    rw [natDigitsRev, if_neg hn]
    simp

theorem parseNatAux_append (acc : Nat) (xs ys : List Char) :
    parseNatAux acc (xs ++ ys) =
      (parseNatAux acc xs).bind (fun a => parseNatAux a ys) := by
  induction xs generalizing acc with
  | nil => simp [parseNatAux]
  | cons x xs ih =>
    rw [List.cons_append, parseNatAux, parseNatAux]
    cases charDigit x with
    | none => simp
    | some d => simp [ih]
theorem parseNatAux_natDigitsRev (fuel : Nat) :
    ∀ n acc, n ≤ fuel →
      parseNatAux acc ((natDigitsRev fuel n).reverse.map digitChar) =
        some (acc * 10 ^ (natDigitsRev fuel n).length + n) := by
  induction fuel with
  | zero =>
    intro n acc h
    interval_cases n
    simp [natDigitsRev, parseNatAux]
  | succ fuel ih =>
    intro n acc h
    rw [natDigitsRev]
    by_cases hn : n = 0
    · simp [hn, parseNatAux]
    · rw [if_neg hn]
      have hdiv : n / 10 ≤ fuel := by
        have := Nat.div_lt_self (Nat.pos_of_ne_zero hn) (show 1 < 10 by norm_num)
        omega
      rw [List.reverse_cons, List.map_append, parseNatAux_append, ih (n / 10) acc hdiv]
      simp only [Option.bind_some, List.map_cons, List.map_nil, parseNatAux,
        charDigit_digitChar (Nat.mod_lt n (show 0 < 10 by norm_num))]
      have hdm : n / 10 * 10 + n % 10 = n := by omega
      simp only [List.length_cons, pow_succ, Option.some_bind]
      congr 1
      calc (acc * 10 ^ (natDigitsRev fuel (n / 10)).length + n / 10) * 10 + n % 10
          = acc * (10 ^ (natDigitsRev fuel (n / 10)).length * 10) +
              (n / 10 * 10 + n % 10) := by ring
        _ = acc * (10 ^ (natDigitsRev fuel (n / 10)).length * 10) + n := by rw [hdm]
theorem parseNat_natToChars (n : Nat) : parseNat (natToChars n) = some n := by
  by_cases hn : n = 0
  · subst hn; decide
  · have hne := natToChars_ne_nil n
    rw [parseNat.eq_def]
    split
    · exact absurd (by assumption) hne
    · rw [natToChars, if_neg hn]
      rw [parseNatAux_natDigitsRev n n 0 (le_refl n)]
      simp

theorem parseNatAux_zeros (z : Nat) (cs : List Char) :
    parseNatAux 0 (List.replicate z '0' ++ cs) = parseNatAux 0 cs := by
  induction z with
  | zero => simp
  | succ z ih =>
    rw [List.replicate_succ, List.cons_append, parseNatAux]
    have : charDigit '0' = some 0 := by decide
    rw [this]
    simpa using ih

theorem parseNat_padZeros (k n : Nat) :
    parseNat (padZeros k (natToChars n)) = some n := by
  rw [padZeros, parseNat.eq_def]
  split
  · rename_i heq
    exact absurd (List.append_eq_nil.mp heq).2 (natToChars_ne_nil n)
  · rw [parseNatAux_zeros]
    have h := parseNat_natToChars n
    rw [parseNat.eq_def] at h
    revert h
    split
    · exact absurd (by assumption) (natToChars_ne_nil n)
    · exact id

theorem natDigitsRev_length_le (fuel : Nat) :
    ∀ n k, n ≤ fuel → n < 10 ^ k → (natDigitsRev fuel n).length ≤ k := by
  induction fuel with
  | zero => intro n k h hk; interval_cases n; simp [natDigitsRev]
  | succ fuel ih =>
    intro n k h hk
    rw [natDigitsRev]
    by_cases hn : n = 0
    · simp [hn]
    · rw [if_neg hn]
      have hkpos : 0 < k := by
        by_contra hc
        push_neg at hc
        interval_cases k
        simp at hk
        omega
      obtain ⟨k', rfl⟩ := Nat.exists_eq_succ_of_ne_zero (Nat.pos_iff_ne_zero.mp hkpos)
      have hdiv : n / 10 ≤ fuel := by
        have := Nat.div_lt_self (Nat.pos_of_ne_zero hn) (show 1 < 10 by norm_num)
        omega
      have hdivlt : n / 10 < 10 ^ k' := by
        rw [Nat.div_lt_iff_lt_mul (by norm_num : 0 < 10)]
        calc n < 10 ^ (k' + 1) := hk
          _ = 10 ^ k' * 10 := by rw [pow_succ]
      simpa using ih (n / 10) k' hdiv hdivlt

theorem length_natToChars_le {n k : Nat} (hk : 0 < k) (h : n < 10 ^ k) :
    (natToChars n).length ≤ k := by
  rw [natToChars]
  by_cases hn : n = 0
  · simp [hn]; omega
  · rw [if_neg hn]
    simpa using natDigitsRev_length_le n n k (le_refl n) h

theorem length_padZeros {k : Nat} {cs : List Char} (h : cs.length ≤ k) :
    (padZeros k cs).length = k := by
  rw [padZeros]
  simp
  omega

theorem splitOnFirst_none {c : Char} {l : List Char} (h : ∀ x ∈ l, x ≠ c) :
    splitOnFirst c l = none := by
  induction l with
  | nil => rfl
  | cons x xs ih =>
    rw [splitOnFirst, if_neg (h x (List.mem_cons_self x xs))]
    rw [ih (fun y hy => h y (List.mem_cons_of_mem x hy))]
    rfl

theorem splitOnFirst_append {c : Char} {a b : List Char} (h : ∀ x ∈ a, x ≠ c) :
    splitOnFirst c (a ++ c :: b) = some (a, b) := by
  induction a with
  | nil => simp [splitOnFirst]
  | cons x xs ih =>
    rw [List.cons_append, splitOnFirst, if_neg (h x (List.mem_cons_self x xs))]
    rw [ih (fun y hy => h y (List.mem_cons_of_mem x hy))]
    rfl
theorem no_dot_natToChars {n : Nat} : ∀ c ∈ natToChars n, c ≠ '.' := by
  intro c hc
  obtain ⟨d, hd, rfl⟩ := mem_natToChars hc
  exact digitChar_ne_dot hd

theorem format_nat_sign (n e : Nat) :
    Dec.format ⟨(n : Int), e⟩ =
      (if e = 0 then natToChars n
       else natToChars (n / 10 ^ e) ++ '.' :: padZeros e (natToChars (n % 10 ^ e))) := by
  have h1 : ¬((n : Int) < 0) := by omega
  simp only [Dec.format, if_neg h1, Int.natAbs_ofNat]
  split <;> simp

theorem parseUDec_format_nat (n e : Nat) :
    parseUDec (Dec.format ⟨(n : Int), e⟩) = some ⟨(n : Int), e⟩ := by
  rw [format_nat_sign]
  by_cases he : e = 0
  · rw [if_pos he, parseUDec, splitOnFirst_none no_dot_natToChars, parseNat_natToChars]
    simp [he]
  · rw [if_neg he, parseUDec, splitOnFirst_append no_dot_natToChars]
    dsimp only
    have hepos : 0 < e := Nat.pos_of_ne_zero he
    have hmod : n % 10 ^ e < 10 ^ e := Nat.mod_lt _ (Nat.pos_pow_of_pos e (by norm_num))
    have hlen : (padZeros e (natToChars (n % 10 ^ e))).length = e :=
      length_padZeros (length_natToChars_le hepos hmod)
    rw [parseNat_natToChars, parseNat_padZeros, hlen]
    dsimp only
    have hdm : n / 10 ^ e * 10 ^ e + n % 10 ^ e = n := by
      rw [Nat.div_add_mod']
    rw [hdm]

theorem parseDec_eq_parseUDec {cs : List Char} (h : ∀ t, cs ≠ '-' :: t) :
    parseDec cs = parseUDec cs := by
  rw [parseDec.eq_def]
  split
  · rename_i t; exact absurd rfl (h t)
  · rfl

theorem natToChars_append_ne_dash (a : Nat) (r t : List Char) :
    natToChars a ++ r ≠ '-' :: t := by
  intro h
  cases hA : natToChars a with
  | nil => exact natToChars_ne_nil a hA
  | cons c cs' =>
    rw [hA, List.cons_append] at h
    have hc : c ∈ natToChars a := hA ▸ List.mem_cons_self c cs'
    obtain ⟨d, hd, rfl⟩ := mem_natToChars hc
    have hhead := congrArg List.head? h
    simp at hhead
    exact digitChar_ne_dash hd hhead

theorem format_nat_ne_dash (n e : Nat) : ∀ t, Dec.format ⟨(n : Int), e⟩ ≠ '-' :: t := by
  intro t
  rw [format_nat_sign]
  by_cases he : e = 0
  · rw [if_pos he, ← List.append_nil (natToChars n)]
    exact natToChars_append_ne_dash n [] t
  · rw [if_neg he]
    exact natToChars_append_ne_dash _ _ t

theorem parseDec_format (d : Dec) : parseDec d.format = some d := by
  obtain ⟨m, e⟩ := d
  rcases le_or_lt 0 m with hm | hm
  · obtain ⟨n, rfl⟩ : ∃ n : Nat, m = (n : Int) := ⟨m.toNat, (Int.toNat_of_nonneg hm).symm⟩
    rw [parseDec_eq_parseUDec (format_nat_ne_dash n e), parseUDec_format_nat]
  · have h2 : ¬((m.natAbs : Int) < 0) := by omega
    have hfmt : Dec.format ⟨m, e⟩ = '-' :: Dec.format ⟨(m.natAbs : Int), e⟩ := by
      simp only [Dec.format, if_pos hm, if_neg h2, Int.natAbs_ofNat]
      split <;> simp
    have hstep : parseDec ('-' :: Dec.format ⟨(m.natAbs : Int), e⟩) =
        (parseUDec (Dec.format ⟨(m.natAbs : Int), e⟩)).map Dec.neg := rfl
    rw [hfmt, hstep, parseUDec_format_nat]
    have hneg : -((m.natAbs : Int)) = m := by omega
    simp only [Option.map_some', Dec.neg, hneg]

/-! ### Quantities and the Property Factory Engine -/

/-- A unit-bearing quantity at the wire's decimal precision: exact decimal
magnitude plus the unit's name. -/
structure Quantity where
  mag : Dec
  unit : String
  deriving DecidableEq, Repr

/-- Modelled from the spec: the immutable descriptor of a unit-bearing
property binding (`unitful_property` in the missing `util_fns.py`): command
keyword and declared default unit. -/
structure UnitfulBinding where
  cmd : String
  units : String
  deriving DecidableEq, Repr

/-- Modelled from the spec: decode a response of unit-bearing kind — parse a
numeric value and optional unit suffix; when the response carries no unit,
the binding's declared default unit applies. -/
def unitfulDecode (b : UnitfulBinding) (cs : List Char) : Option Quantity :=
  match splitOnFirst ' ' cs with
  | none => (parseDec cs).map (fun d => ⟨d, b.units⟩)
  | some (numPart, unitPart) => (parseDec numPart).map (fun d => ⟨d, String.mk unitPart⟩)

/-- Modelled from the spec: encode a value for the wire; the value is carried
in the binding's declared unit and rendered as exact decimal text. -/
def unitfulEncode (q : Quantity) : List Char := q.mag.format

/-- Modelled from the spec: the synthesized get of `unitful_property` —
query `<cmd>?`, then decode; an exhausted script is a timeout, an
unparsable response a decode failure. -/
def unitful_property_get (b : UnitfulBinding) (s : CommState) :
    Except IKError Quantity × CommState :=
  match queryLine (b.cmd ++ "?") s with
  | (none, s') => (.error .timeoutError, s')
  | (some r, s') =>
    match unitfulDecode b r.data with
    | none => (.error .decodeError, s')
    | some q => (.ok q, s')

/-- Modelled from the spec: the synthesized set of `unitful_property` with
the default set-format template `<cmd> <value>`. -/
def unitful_property_set (b : UnitfulBinding) (v : Dec) (s : CommState) : CommState :=
  sendcmdLine (b.cmd ++ " " ++ Dec.formatString v) s

/-- Modelled from the spec and the coding-style guide: the Python values a
permissive boolean setter accepts; truthiness follows Python `bool`. -/
inductive PyVal where
  | pyBool (b : Bool)
  | pyInt (n : Int)
  | pyStr (s : String)
  | pyNone
  deriving DecidableEq, Repr

/-- Python truthiness (`bool(...)`): `False`, `0`, `""` and `None` are falsey,
everything else here is truthy. -/
def truthy : PyVal → Bool
  | .pyBool b => b
  | .pyInt n => n != 0
  | .pyStr s => s.length != 0
  | .pyNone => false

/-- Modelled from the spec: the immutable descriptor of a `bool_property`
binding: command keyword plus the instrument's true/false tokens. -/
structure BoolBinding where
  cmd : String
  instTrue : String
  instFalse : String
  deriving DecidableEq, Repr

/-- Modelled from the spec: the synthesized get of `bool_property` — query
`<cmd>?` and map the configured tokens to a boolean; any other token is a
decode failure. -/
def bool_property_get (b : BoolBinding) (s : CommState) :
    Except IKError Bool × CommState :=
  match queryLine (b.cmd ++ "?") s with
  | (none, s') => (.error .timeoutError, s')
  | (some r, s') =>
    if r = b.instTrue then (.ok true, s')
    else if r = b.instFalse then (.ok false, s')
    else (.error .decodeError, s')

/-- Modelled from the spec and the coding-style guide: the synthesized set of
`bool_property` — the input is converted with Python truthiness first, then
the matching configured token is sent as `<cmd> <token>`. -/
def bool_property_set (b : BoolBinding) (v : PyVal) (s : CommState) : CommState :=
  sendcmdLine (b.cmd ++ " " ++ (if truthy v then b.instTrue else b.instFalse)) s

/-- Modelled from the spec: how one bound of a bounded binding is supplied —
fixed at binding time, or queried live from the instrument. -/
inductive BoundSpec where
  | fixed (q : Dec)
  | queried
  deriving DecidableEq, Repr

/-- Modelled from the spec: the descriptor of a `bounded_unitful_property`
binding.  `lo`/`hi` are the known/queried bounds, in the declared unit, as
available at validation time; `loSpec`/`hiSpec` record how each bound is
exposed to the client (fixed constant or live `MIN?`/`MAX?` query). -/
structure BoundedBinding where
  cmd : String
  units : String
  lo : Dec
  hi : Dec
  loSpec : BoundSpec
  hiSpec : BoundSpec
  deriving DecidableEq, Repr

/-- Modelled from the spec: the set path of `bounded_unitful_property` —
validate the input against the known/queried range before sending; an
out-of-range input fails with `ValidationError` and performs no I/O, an
in-range input is formatted with the default template and sent. -/
def bounded_unitful_property_set (b : BoundedBinding) (v : Dec) (s : CommState) :
    Except IKError Unit × CommState :=
  if Dec.le b.lo v && Dec.le v b.hi then
    (.ok (), sendcmdLine (b.cmd ++ " " ++ Dec.formatString v) s)
  else (.error .validationError, s)

/-- Modelled from the spec: the get path of `bounded_unitful_property` — the
device's own state is decoded like any unitful response and reported, not
clamped. -/
def bounded_unitful_property_get (b : BoundedBinding) (s : CommState) :
    Except IKError Quantity × CommState :=
  unitful_property_get ⟨b.cmd, b.units⟩ s

/-- Modelled from the spec: the readable bound accessor returned by
`bounded_unitful_property`: a fixed bound is returned without I/O, a queried
bound issues the given `…:MIN?`/`…:MAX?` query and decodes the response in
the declared unit. -/
def boundGetter (units : String) (queryCmd : String) (sp : BoundSpec)
    (s : CommState) : Except IKError Quantity × CommState :=
  match sp with
  | .fixed q => (.ok ⟨q, units⟩, s)
  | .queried =>
    match queryLine queryCmd s with
    | (none, s') => (.error .timeoutError, s')
    | (some r, s') =>
      match unitfulDecode ⟨queryCmd, units⟩ r.data with
      | none => (.error .decodeError, s')
      | some q => (.ok q, s')

/-- Modelled from the spec: `bounded_unitful_property` returns a triple —
the value accessors plus a readable minimum and maximum property. -/
def bounded_unitful_property (b : BoundedBinding) :
    ((CommState → Except IKError Quantity × CommState) ×
      (Dec → CommState → Except IKError Unit × CommState)) ×
    (CommState → Except IKError Quantity × CommState) ×
    (CommState → Except IKError Quantity × CommState) :=
  ((bounded_unitful_property_get b, bounded_unitful_property_set b),
    boundGetter b.units (b.cmd ++ ":MIN?") b.loSpec,
    boundGetter b.units (b.cmd ++ ":MAX?") b.hiSpec)

/-! ### Indexed Sub-device Resolver (`ProxyList`) -/

/-- An external or native sub-device index: a number or a label. -/
inductive SubIdx where
  | num (i : Nat)
  | label (s : String)
  deriving DecidableEq, Repr

/-- Modelled from the spec: the valid index set a `ProxyList` is configured
with — a contiguous zero-based range of size `n`, or an explicit label set. -/
inductive ValidSet where
  | contiguous (n : Nat)
  | labels (ls : List String)
  deriving DecidableEq, Repr

/-- Modelled from the spec: an `IndexedView` holds only a non-owning
back-reference to its parent (modelled as the parent's identity, never the
parent's resources) and the instrument's native index. -/
structure IndexedView where
  parentRef : Nat
  native : SubIdx
  deriving DecidableEq, Repr

/-- Modelled from the spec: `ProxyList` resolution — validate the external
index against the configured valid set (failing with `IndexError`), then
build the view with the native index: an external zero-based index is
translated to the instrument's one-based index, a label passes through
unchanged. -/
def ProxyList.resolve (parentRef : Nat) (vs : ValidSet) (idx : SubIdx) :
    Except IKError IndexedView :=
  match vs, idx with
  | .contiguous n, .num i =>
    if i < n then .ok ⟨parentRef, .num (i + 1)⟩ else .error .indexError
  | .labels ls, .label s =>
    if s ∈ ls then .ok ⟨parentRef, .label s⟩ else .error .indexError
  | _, _ => .error .indexError

/-- Modelled from the spec: iteration over a `ProxyList` — one view per valid
index, in ascending declared order; each call builds a fresh finite list. -/
def ProxyList.iterate (parentRef : Nat) (vs : ValidSet) : List IndexedView :=
  match vs with
  | .contiguous n => (List.range n).map (fun i => ⟨parentRef, .num (i + 1)⟩)
  | .labels ls => ls.map (fun s => ⟨parentRef, .label s⟩)

/-! ### The SRS DG645 scenario and the Protocol Test Harness -/

/-- Modelled from the spec (`testing.rst`): the DG645 output collection is
label-indexed; the label is translated to the instrument's native channel
number (`AB` is native channel `1`, as the expected line `LAMP? 1` shows). -/
def srsdg645OutputIndex (label : String) : Option Nat :=
  List.lookup label [("T0", 0), ("AB", 1), ("CD", 2), ("EF", 3), ("GH", 4)]

/-- Modelled from the spec: getting `level_amplitude` on one DG645 output —
query `LAMP? <native>` and decode the response with default unit volts. -/
def srsdg645LevelAmplitudeGet (label : String) (s : CommState) :
    Except IKError Quantity × CommState :=
  match srsdg645OutputIndex label with
  | none => (.error .indexError, s)
  | some n =>
    match queryLine ("LAMP? " ++ natToString n) s with
    | (none, s') => (.error .timeoutError, s')
    | (some r, s') =>
      match unitfulDecode ⟨"LAMP", "V"⟩ r.data with
      | none => (.error .decodeError, s')
      | some q => (.ok q, s')

/-- Modelled from the spec: setting `level_amplitude` on one DG645 output —
send the single line `LAMP <native>,<value>`. -/
def srsdg645LevelAmplitudeSet (label : String) (v : Dec) (s : CommState) :
    Except IKError Unit × CommState :=
  match srsdg645OutputIndex label with
  | none => (.error .indexError, s)
  | some n => (.ok (), sendcmdLine ("LAMP " ++ natToString n ++ "," ++ Dec.formatString v) s)

/-- Modelled from the spec: the harness's scope-exit assertion — the lines
actually sent are compared with the expected outbound lines, element by
element and in order. -/
def transcriptMatches : List String → List String → Bool
  | [], [] => true
  | a :: as, b :: bs => a == b && transcriptMatches as bs
  | _, _ => false

/-- Modelled from the spec: `expected_protocol`'s final check on scope exit:
the recorded outbound transcript must equal the expected one. -/
def expected_protocol_check (expected : List String) (s : CommState) : Bool :=
  transcriptMatches s.sent expected

/-! ### Byte-level `read_line` and the Socket backend -/

/-- Strip a suffix of known length from the end of a buffer. -/
def stripEnd (k : Nat) (buf : List Char) : List Char :=
  buf.take (buf.length - k)

/-- Modelled from the spec: one byte of `read_line` buffering — append the
byte, then test whether the input terminator has just been observed; on the
whole chunk it either yields the finished line (terminator stripped) or the
grown buffer. -/
def scanChunk (term : List Char) (buf : List Char) :
    List Char → (List Char) ⊕ (List Char)
  | [] => Sum.inr buf
  | c :: rest =>
    let buf' := buf ++ [c]
    if term ≠ [] ∧ term.IsSuffix buf' then Sum.inl (stripEnd term.length buf')
    else scanChunk term buf' rest

/-- Modelled from the spec: `read_line()` over the raw byte stream — consume
bytes until the input terminator is observed, strip it and return the text;
a stream that closes before a terminator arrives yields nothing (the
`FramingError`/`TimeoutError` cases). -/
def readLineStream (term buf bytes : List Char) : Option (List Char) :=
  match scanChunk term buf bytes with
  | .inl line => some line
  | .inr _ => none

/-- Modelled from the spec: the Socket backend's `read_line` — the TCP stream
delivers the bytes in arbitrary chunks; the backend buffers across chunk
boundaries until the terminator is found. -/
def sockReadLine (term buf : List Char) : List (List Char) → Option (List Char)
  | [] => none
  | ch :: rest =>
    match scanChunk term buf ch with
    | .inl line => some line
    | .inr buf' => sockReadLine term buf' rest

/-! ### Communicator exclusivity (spec sections 4.1 and 5)

The Communicator serializes `query`/`sendcmd` transactions with an exclusive
lock.  The missing lock code is modelled as a small-step transition system:
each caller runs acquire → write payload chunk → write terminator chunk →
(query only) read → release, and the backend records the outbound byte
chunks in arrival order. -/

/-- The kind of transaction a caller runs: `query` (write then read) or
`sendcmd` (write only). -/
inductive TxnKind where
  | queryK
  | sendK
  deriving DecidableEq, Repr

/-- Where one caller is inside its transaction.  `send_line` writes the
payload bytes and then the output-terminator bytes as separate backend
writes; a failed read (`ok = false`) still proceeds to release. -/
inductive Phase where
  | ready
  | acquired
  | wrotePayload
  | sendFailed
  | wroteTerm
  | readFinished (ok : Bool)
  | finished
  deriving DecidableEq, Repr

/-- One caller of the shared Communicator. -/
structure Caller where
  kind : TxnKind
  phase : Phase
  deriving DecidableEq, Repr

/-- One outbound chunk observed at the backend: the writing caller's id and
whether the chunk was the terminator (`true`) or the payload (`false`). -/
def WriteEv : Type := Nat × Bool

/-- The Communicator's lock, its callers, and the backend's outbound chunk
log (newest chunk first). -/
structure LockSys where
  lock : Option Nat
  callers : Nat → Caller
  log : List (Nat × Bool)

/-- A caller holding the Communicator between acquire and release. -/
def inCS (c : Caller) : Prop :=
  c.phase = .acquired ∨ c.phase = .wrotePayload ∨ c.phase = .sendFailed ∨
    c.phase = .wroteTerm ∨ ∃ ok, c.phase = .readFinished ok

instance (c : Caller) : Decidable (inCS c) := by
  unfold inCS
  cases c.phase <;> simp <;> infer_instance

/-- Modelled from the spec: the atomic steps of `query`/`sendcmd` under the
Communicator's exclusive lock.  The lock is scoped-acquired before any byte
is written and released on every exit path — after a successful read, after
a failed read, after a `sendcmd` that never reads, and after a `send_line`
that fails with `TransportError`: either backend write (payload chunk or
terminator chunk) may fail, a chunk being written atomically or not at all;
a failed terminator write leaves the already-written payload chunk as an
aborted lone chunk at the backend, the caller skips any read and still
releases the lock. -/
inductive LockStep : LockSys → LockSys → Prop where
  | acquire (s : LockSys) (i : Nat) (hl : s.lock = none)
      (hp : (s.callers i).phase = .ready) :
      LockStep s { s with
                    lock := some i
                    callers := Function.update s.callers i ⟨(s.callers i).kind, .acquired⟩ }
  | writePayload (s : LockSys) (i : Nat) (hl : s.lock = some i)
      (hp : (s.callers i).phase = .acquired) :
      LockStep s { s with
                    callers := Function.update s.callers i ⟨(s.callers i).kind, .wrotePayload⟩
                    log := (i, false) :: s.log }
  | writeTerm (s : LockSys) (i : Nat) (hl : s.lock = some i)
      (hp : (s.callers i).phase = .wrotePayload) :
      LockStep s { s with
                    callers := Function.update s.callers i ⟨(s.callers i).kind, .wroteTerm⟩
                    log := (i, true) :: s.log }
  | readLine (s : LockSys) (i : Nat) (ok : Bool) (hl : s.lock = some i)
      (hk : (s.callers i).kind = .queryK) (hp : (s.callers i).phase = .wroteTerm) :
      LockStep s { s with
                    callers := Function.update s.callers i ⟨(s.callers i).kind, .readFinished ok⟩ }
  | releaseQuery (s : LockSys) (i : Nat) (ok : Bool) (hl : s.lock = some i)
      (hp : (s.callers i).phase = .readFinished ok) :
      LockStep s { s with
                    lock := none
                    callers := Function.update s.callers i ⟨(s.callers i).kind, .finished⟩ }
  | releaseSend (s : LockSys) (i : Nat) (hl : s.lock = some i)
      (hk : (s.callers i).kind = .sendK) (hp : (s.callers i).phase = .wroteTerm) :
      LockStep s { s with
                    lock := none
                    callers := Function.update s.callers i ⟨(s.callers i).kind, .finished⟩ }
  | writePayloadFail (s : LockSys) (i : Nat) (hl : s.lock = some i)
      (hp : (s.callers i).phase = .acquired) :
      LockStep s { s with
                    callers := Function.update s.callers i ⟨(s.callers i).kind, .sendFailed⟩ }
  | writeTermFail (s : LockSys) (i : Nat) (hl : s.lock = some i)
      (hp : (s.callers i).phase = .wrotePayload) :
      LockStep s { s with
                    callers := Function.update s.callers i ⟨(s.callers i).kind, .sendFailed⟩ }
  | releaseFailed (s : LockSys) (i : Nat) (hl : s.lock = some i)
      (hp : (s.callers i).phase = .sendFailed) :
      LockStep s { s with
                    lock := none
                    callers := Function.update s.callers i ⟨(s.callers i).kind, .finished⟩ }

/-- The initial system: lock free, every caller ready, empty log. -/
def lockInit (kinds : Nat → TxnKind) : LockSys :=
  { lock := none, callers := fun i => ⟨kinds i, .ready⟩, log := [] }

/-- States reachable from the initial system. -/
def LockReach (kinds : Nat → TxnKind) (s : LockSys) : Prop :=
  Relation.ReflTransGen LockStep (lockInit kinds) s

/-- A chunk log with no interleaving between transactions: the log (stored
newest first) decomposes into per-caller contiguous blocks, each block being
either a completed line — a payload chunk immediately followed by the same
caller's terminator chunk — or a lone payload chunk of a `send_line` whose
terminator write failed.  No other caller's bytes ever sit between the two
chunks of one line. -/
inductive ChunkLog : List (Nat × Bool) → Prop where
  | nil : ChunkLog []
  | pair (i : Nat) (l : List (Nat × Bool)) (h : ChunkLog l) :
      ChunkLog ((i, true) :: (i, false) :: l)
  | aborted (i : Nat) (l : List (Nat × Bool)) (h : ChunkLog l) :
      ChunkLog ((i, false) :: l)

/-- The log decomposes into blocks, except that the lock holder may be
between its two chunk writes (its payload chunk heads the log). -/
def logOk (s : LockSys) : Prop :=
  match s.lock with
  | some i =>
    if (s.callers i).phase = .wrotePayload then
      ∃ l, s.log = (i, false) :: l ∧ ChunkLog l
    else ChunkLog s.log
  | none => ChunkLog s.log

/-- The inductive invariant: a caller is inside its critical section exactly
when it holds the lock, and the log is grouped up to the holder's unfinished
line. -/
def LockInv (s : LockSys) : Prop :=
  (∀ i, inCS (s.callers i) ↔ s.lock = some i) ∧ logOk s

/-! ### The core's operations, classified by whether they perform I/O -/

/-- The typed result of one core operation. -/
inductive OpResult where
  | rUnit
  | rBool (b : Bool)
  | rQuantity (q : Quantity)
  | rView (v : IndexedView)
  | rText (t : String)
  deriving DecidableEq, Repr

/-- Modelled from the spec: the operations the core resolves, used to state
which errors can be raised without touching the wire. -/
inductive CoreOp where
  | opBoundedSet (b : BoundedBinding) (v : Dec)
  | opBoundedGet (b : BoundedBinding)
  | opBoundMin (b : BoundedBinding)
  | opBoundMax (b : BoundedBinding)
  | opUnitfulGet (b : UnitfulBinding)
  | opUnitfulSet (b : UnitfulBinding) (v : Dec)
  | opBoolGet (b : BoolBinding)
  | opBoolSet (b : BoolBinding) (v : PyVal)
  | opResolve (parentRef : Nat) (vs : ValidSet) (idx : SubIdx)
  | opQuery (line : String)
  | opSendcmd (line : String)

/-- Run one core operation against a Communicator state. -/
def runOp : CoreOp → CommState → Except IKError OpResult × CommState
  | .opBoundedSet b v, s =>
    let (r, s') := bounded_unitful_property_set b v s
    (r.map (fun _ => .rUnit), s')
  | .opBoundedGet b, s =>
    let (r, s') := bounded_unitful_property_get b s
    (r.map .rQuantity, s')
  | .opBoundMin b, s =>
    let (r, s') := boundGetter b.units (b.cmd ++ ":MIN?") b.loSpec s
    (r.map .rQuantity, s')
  | .opBoundMax b, s =>
    let (r, s') := boundGetter b.units (b.cmd ++ ":MAX?") b.hiSpec s
    (r.map .rQuantity, s')
  | .opUnitfulGet b, s =>
    let (r, s') := unitful_property_get b s
    (r.map .rQuantity, s')
  | .opUnitfulSet b v, s => (.ok .rUnit, unitful_property_set b v s)
  | .opBoolGet b, s =>
    let (r, s') := bool_property_get b s
    (r.map .rBool, s')
  | .opBoolSet b v, s => (.ok .rUnit, bool_property_set b v s)
  | .opResolve p vs idx, s => ((ProxyList.resolve p vs idx).map .rView, s)
  | .opQuery line, s =>
    match queryLine line s with
    | (none, s') => (.error .timeoutError, s')
    | (some r, s') => (.ok (.rText r), s')
  | .opSendcmd line, s => (.ok .rUnit, sendcmdLine line s)
theorem lockInv_init (kinds : Nat → TxnKind) : LockInv (lockInit kinds) := by
  constructor
  · intro i
    simp [lockInit, inCS]
  · simp [lockInit, logOk]
    exact ChunkLog.nil

theorem lockInv_step {s s' : LockSys} (h : LockStep s s') (hi : LockInv s) :
    LockInv s' := by
  obtain ⟨hcs, hlog⟩ := hi
  cases h with
  | acquire i hl hp =>
    have hg : ChunkLog s.log := by
      unfold logOk at hlog
      rw [hl] at hlog
      exact hlog
    constructor
    · intro j
      by_cases hij : j = i
      · subst hij
        simp [Function.update_same, inCS]
      · simp only [Function.update_noteq hij]
        constructor
        · intro hj
          exact absurd ((hcs j).mp hj) (by simp [hl])
        · intro hj
          simp at hj
          exact absurd hj.symm hij
    · unfold logOk
      simp [Function.update_same]
      exact hg
  | writePayload i hl hp =>
    have hg : ChunkLog s.log := by
      unfold logOk at hlog
      rw [hl] at hlog
      simp only [hp] at hlog
      simpa using hlog
    constructor
    · intro j
      by_cases hij : j = i
      · subst hij
        simp [Function.update_same, inCS, hl]
      · simp only [Function.update_noteq hij]
        exact hcs j
    · unfold logOk
      rw [hl]
      simp [Function.update_same]
      exact hg
  | writeTerm i hl hp =>
    have hg : ∃ l, s.log = (i, false) :: l ∧ ChunkLog l := by
      unfold logOk at hlog
      rw [hl] at hlog
      simp only [hp] at hlog
      simpa using hlog
    obtain ⟨l, hleq, hgl⟩ := hg
    constructor
    · intro j
      by_cases hij : j = i
      · subst hij
        simp [Function.update_same, inCS, hl]
      · simp only [Function.update_noteq hij]
        exact hcs j
    · unfold logOk
      rw [hl]
      simp [Function.update_same]
      rw [hleq]
      exact ChunkLog.pair i l hgl
  | readLine i ok hl hk hp =>
    have hg : ChunkLog s.log := by
      unfold logOk at hlog
      rw [hl] at hlog
      simp only [hp] at hlog
      simpa using hlog
    constructor
    · intro j
      by_cases hij : j = i
      · subst hij
        simp [Function.update_same, inCS, hl]
      · simp only [Function.update_noteq hij]
        exact hcs j
    · unfold logOk
      rw [hl]
      simp [Function.update_same]
      exact hg
  | releaseQuery i ok hl hp =>
    have hg : ChunkLog s.log := by
      unfold logOk at hlog
      rw [hl] at hlog
      simp only [hp] at hlog
      simpa using hlog
    constructor
    · intro j
      by_cases hij : j = i
      · subst hij
        simp [Function.update_same, inCS]
      · simp only [Function.update_noteq hij]
        constructor
        · intro hj
          have hjl := (hcs j).mp hj
          rw [hl] at hjl
          exact absurd (Option.some.inj hjl).symm hij
        · intro hj
          cases hj
    · unfold logOk
      simp
      exact hg
  | releaseSend i hl hk hp =>
    have hg : ChunkLog s.log := by
      unfold logOk at hlog
      rw [hl] at hlog
      simp only [hp] at hlog
      simpa using hlog
    constructor
    · intro j
      by_cases hij : j = i
      · subst hij
        simp [Function.update_same, inCS]
      · simp only [Function.update_noteq hij]
        constructor
        · intro hj
          have hjl := (hcs j).mp hj
          rw [hl] at hjl
          exact absurd (Option.some.inj hjl).symm hij
        · intro hj
          cases hj
    · unfold logOk
      simp
      exact hg

  | writePayloadFail i hl hp =>
    have hg : ChunkLog s.log := by
      unfold logOk at hlog
      rw [hl] at hlog
      simp only [hp] at hlog
      simpa using hlog
    constructor
    · intro j
      by_cases hij : j = i
      · subst hij
        simp [Function.update_same, inCS, hl]
      · simp only [Function.update_noteq hij]
        exact hcs j
    · unfold logOk
      rw [hl]
      simp [Function.update_same]
      exact hg
  | writeTermFail i hl hp =>
    have hg : ∃ l, s.log = (i, false) :: l ∧ ChunkLog l := by
      unfold logOk at hlog
      rw [hl] at hlog
      simp only [hp] at hlog
      simpa using hlog
    obtain ⟨l, hleq, hgl⟩ := hg
    constructor
    · intro j
      by_cases hij : j = i
      · subst hij
        simp [Function.update_same, inCS, hl]
      · simp only [Function.update_noteq hij]
        exact hcs j
    · unfold logOk
      rw [hl]
      simp [Function.update_same]
      rw [hleq]
      exact ChunkLog.aborted i l hgl
  | releaseFailed i hl hp =>
    have hg : ChunkLog s.log := by
      unfold logOk at hlog
      rw [hl] at hlog
      simp only [hp] at hlog
      simpa using hlog
    constructor
    · intro j
      by_cases hij : j = i
      · subst hij
        simp [Function.update_same, inCS]
      · simp only [Function.update_noteq hij]
        constructor
        · intro hj
          have hjl := (hcs j).mp hj
          rw [hl] at hjl
          exact absurd (Option.some.inj hjl).symm hij
        · intro hj
          cases hj
    · unfold logOk
      simp
      exact hg

theorem lockInv_reach {kinds : Nat → TxnKind} {s : LockSys}
    (h : LockReach kinds s) : LockInv s := by
  induction h with
  | refl => exact lockInv_init kinds
  | tail hr hstep ih => exact lockInv_step hstep ih

theorem lock_progress {s : LockSys} (hi : LockInv s) {i : Nat}
    (hl : s.lock = some i) : ∃ s', LockStep s s' := by
  obtain ⟨hcs, hlog⟩ := hi
  have hin : inCS (s.callers i) := (hcs i).mpr hl
  unfold inCS at hin
  rcases hin with hp | hp | hp | hp | ⟨ok, hp⟩
  · exact ⟨_, LockStep.writePayload s i hl hp⟩
  · exact ⟨_, LockStep.writeTerm s i hl hp⟩
  · exact ⟨_, LockStep.releaseFailed s i hl hp⟩
  · cases hk : (s.callers i).kind with
    | queryK => exact ⟨_, LockStep.readLine s i true hl hk hp⟩
    | sendK => exact ⟨_, LockStep.releaseSend s i hl hk hp⟩
  · exact ⟨_, LockStep.releaseQuery s i ok hl hp⟩
theorem scanChunk_append (term : List Char) (xs ys : List Char) :
    ∀ buf, scanChunk term buf (xs ++ ys) =
      match scanChunk term buf xs with
      | .inl l => .inl l
      | .inr b => scanChunk term b ys := by
  induction xs with
  | nil => intro buf; simp [scanChunk]
  | cons c rest ih =>
    intro buf
    rw [List.cons_append, scanChunk, scanChunk]
    by_cases hcond : term ≠ [] ∧ term.IsSuffix (buf ++ [c])
    · rw [if_pos hcond, if_pos hcond]
    · rw [if_neg hcond, if_neg hcond]
      exact ih (buf ++ [c])

theorem sockReadLine_eq_stream (term : List Char) (chunks : List (List Char)) :
    ∀ buf, sockReadLine term buf chunks = readLineStream term buf chunks.flatten := by
  induction chunks with
  | nil => intro buf; rfl
  | cons ch rest ih =>
    intro buf
    rw [List.flatten_cons, sockReadLine, readLineStream, scanChunk_append]
    cases hsc : scanChunk term buf ch with
    | inl line => rfl
    | inr buf' => exact ih buf'

theorem readLineStream_sound (term : List Char) (bytes : List Char) :
    ∀ buf l, readLineStream term buf bytes = some l →
      ∃ used rest, bytes = used ++ rest ∧ buf ++ used = l ++ term := by
  induction bytes with
  | nil => intro buf l h; simp [readLineStream, scanChunk] at h
  | cons c rest ih =>
    intro buf l h
    rw [readLineStream, scanChunk] at h
    by_cases hcond : term ≠ [] ∧ term.IsSuffix (buf ++ [c])
    · rw [if_pos hcond] at h
      obtain ⟨hterm, p, hp⟩ := hcond
      have hl : stripEnd term.length (buf ++ [c]) = l := Option.some.inj h
      refine ⟨[c], rest, rfl, ?_⟩
      have hlen : (buf ++ [c]).length = p.length + term.length := by
        rw [← hp, List.length_append]
      have hstrip : stripEnd term.length (buf ++ [c]) = p := by
        rw [stripEnd, hlen, ← hp]
        simp
      rw [← hl, hstrip, hp]
    · rw [if_neg hcond] at h
      obtain ⟨used, rest', hbytes, hjoin⟩ := ih (buf ++ [c]) l h
      refine ⟨c :: used, rest', by rw [hbytes, List.cons_append], ?_⟩
      rw [← hjoin]
      simp

/-! ### Helper lemmas for the claim theorems -/

theorem transcriptMatches_iff (a b : List String) :
    transcriptMatches a b = true ↔ a = b := by
  induction a generalizing b with
  | nil =>
    cases b with
    | nil => simp [transcriptMatches]
    | cons x xs => simp [transcriptMatches]
  | cons x xs ih =>
    cases b with
    | nil => simp [transcriptMatches]
    | cons y ys =>
      rw [transcriptMatches]
      simp [ih]

theorem mem_padZeros {k : Nat} {cs : List Char} {c : Char}
    (h : c ∈ padZeros k cs) : c = '0' ∨ c ∈ cs := by
  rw [padZeros] at h
  rcases List.mem_append.mp h with h1 | h2
  · exact Or.inl (List.eq_of_mem_replicate h1)
  · exact Or.inr h2

theorem format_chars (d : Dec) {c : Char} (h : c ∈ d.format) :
    c = '-' ∨ c = '.' ∨ ∃ k, k < 10 ∧ c = digitChar k := by
  have hpad : c ∈ padZeros d.e (natToChars (d.m.natAbs % 10 ^ d.e)) →
      c = '-' ∨ c = '.' ∨ ∃ k, k < 10 ∧ c = digitChar k := by
    intro hp
    rcases mem_padZeros hp with h0 | hd
    · exact Or.inr (Or.inr ⟨0, by norm_num, by rw [h0]; rfl⟩)
    · exact Or.inr (Or.inr (mem_natToChars hd))
  rw [Dec.format] at h
  by_cases he : d.e = 0 <;> by_cases hm : d.m < 0 <;>
    simp only [he, hm, if_true, if_false, reduceIte, List.mem_append, List.mem_cons,
      List.mem_singleton, List.not_mem_nil, or_false, false_or, List.nil_append] at h
  · rcases h with h | h
    · exact Or.inl h
    · exact Or.inr (Or.inr (mem_natToChars h))
  · exact Or.inr (Or.inr (mem_natToChars h))
  · rcases h with (h | h) | h | h
    · exact Or.inl h
    · exact Or.inr (Or.inr (mem_natToChars h))
    · exact Or.inr (Or.inl h)
    · exact hpad h
  · rcases h with h | h | h
    · exact Or.inr (Or.inr (mem_natToChars h))
    · exact Or.inr (Or.inl h)
    · exact hpad h

theorem format_no_space (d : Dec) : ∀ c ∈ d.format, c ≠ ' ' := by
  intro c hc
  rcases format_chars d hc with h | h | ⟨k, hk, h⟩
  · rw [h]; decide
  · rw [h]; decide
  · rw [h]
    interval_cases k <;> decide

/-! ### Claim theorems -/

/-- C3: a ProxyList configured with a contiguous range of size `N` iterates
to exactly `N` IndexedViews, the `k`-th being the view of valid index `k`
(ascending declared order, one per valid index, a fresh finite list each
call), and `resolve` rejects every index outside the configured range with
`IndexError`. -/
theorem C3_proxylist_iteration (p n : Nat) :
    (ProxyList.iterate p (.contiguous n)).length = n ∧
    (∀ k, k < n →
      (ProxyList.iterate p (.contiguous n))[k]? = some ⟨p, .num (k + 1)⟩ ∧
      ProxyList.resolve p (.contiguous n) (.num k) = .ok ⟨p, .num (k + 1)⟩) ∧
    (∀ i, n ≤ i →
      ProxyList.resolve p (.contiguous n) (.num i) = .error .indexError) ∧
    (∀ s, ProxyList.resolve p (.contiguous n) (.label s) = .error .indexError) := by
  refine ⟨?_, ?_, ?_, ?_⟩
  · simp [ProxyList.iterate]
  · intro k hk
    constructor
    · simp [ProxyList.iterate, List.getElem?_map, List.getElem?_range hk]
    · simp [ProxyList.resolve, hk]
  · intro i hi
    simp [ProxyList.resolve, Nat.not_lt.mpr hi]
  · intro s
    rfl

/-- C3 witness: the size-3 range on parent 7 yields 3 views, view 1 is the
view of index 1 with native index 2, and index 5 is rejected. -/
theorem C3_witness :
    (ProxyList.iterate 7 (.contiguous 3)).length = 3 ∧
    (ProxyList.iterate 7 (.contiguous 3))[1]? = some ⟨7, .num 2⟩ ∧
    ProxyList.resolve 7 (.contiguous 3) (.num 5) = .error .indexError := by
  obtain ⟨h1, h2, h3, _⟩ := C3_proxylist_iteration 7 3
  exact ⟨h1, (h2 1 (by norm_num)).1, h3 5 (by norm_num)⟩

/-- C4: for every valid index, `resolve` produces an IndexedView holding the
parent back-reference and the instrument's native index: an external
zero-based index `i` in a contiguous range becomes the one-based native
index `i + 1` (external 0 addresses physical channel 1), and a label passes
through unchanged. -/
theorem C4_resolve_native_index :
    (∀ (p n i : Nat), i < n →
      ProxyList.resolve p (.contiguous n) (.num i) = .ok ⟨p, .num (i + 1)⟩) ∧
    (∀ (p : Nat) (ls : List String) (s : String), s ∈ ls →
      ProxyList.resolve p (.labels ls) (.label s) = .ok ⟨p, .label s⟩) := by
  constructor
  · intro p n i hi
    simp [ProxyList.resolve, hi]
  · intro p ls s hs
    simp [ProxyList.resolve, hs]

/-- C4 witness: external channel 0 of a two-channel instrument resolves to
native channel 1, and the label `AB` passes through unchanged. -/
theorem C4_witness :
    ProxyList.resolve 3 (.contiguous 2) (.num 0) = .ok ⟨3, .num 1⟩ ∧
    ProxyList.resolve 3 (.labels ["AB"]) (.label "AB") = .ok ⟨3, .label "AB"⟩ :=
  ⟨C4_resolve_native_index.1 3 2 0 (by norm_num),
    C4_resolve_native_index.2 3 ["AB"] "AB" (by simp)⟩

/-- C5: against a harness primed with the single response `3.2`, getting
`level_amplitude` on output `AB` yields 3.2 volts (the default unit applies)
after the outbound line `LAMP? 1`, setting it to 4.0 V then emits exactly
`LAMP 1,4.0`, the two outbound lines in that order satisfy the harness's
scope-exit assertion, and that assertion succeeds exactly when the recorded
transcript equals the expected one, in order. -/
theorem C5_dg645_level_amplitude_scenario :
    srsdg645LevelAmplitudeGet "AB" ⟨[], ["3.2"]⟩ =
      (.ok ⟨⟨32, 1⟩, "V"⟩, ⟨["LAMP? 1"], []⟩) ∧
    srsdg645LevelAmplitudeSet "AB" ⟨40, 1⟩ ⟨["LAMP? 1"], []⟩ =
      (.ok (), ⟨["LAMP? 1", "LAMP 1,4.0"], []⟩) ∧
    expected_protocol_check ["LAMP? 1", "LAMP 1,4.0"]
      ⟨["LAMP? 1", "LAMP 1,4.0"], []⟩ = true ∧
    (∀ expected s, expected_protocol_check expected s = true ↔ s.sent = expected) := by
  refine ⟨by rfl, by rfl, by decide, ?_⟩
  intro expected s
  exact transcriptMatches_iff s.sent expected

/-- C5 witness: the harness assertion applied to a transcript that matches,
and to one that does not. -/
theorem C5_witness :
    expected_protocol_check ["LAMP? 1"] ⟨["LAMP? 1"], []⟩ = true ∧
    ¬ expected_protocol_check ["LAMP? 1"] ⟨["LAMP 1,4.0"], []⟩ = true := by
  constructor
  · exact (C5_dg645_level_amplitude_scenario.2.2.2 ["LAMP? 1"] ⟨["LAMP? 1"], []⟩).mpr rfl
  · intro hc
    have := (C5_dg645_level_amplitude_scenario.2.2.2 ["LAMP? 1"]
      ⟨["LAMP 1,4.0"], []⟩).mp hc
    simp at this

/-- C6: `read_line` consumes bytes until the configured input terminator is
observed, strips the terminator and returns the text (whatever it returns is
exactly the stream prefix up to and including a terminator, with the
terminator removed); the Socket backend buffers across chunk boundaries, so
reading chunked input is identical to reading the flattened stream — in
particular the payload `OK` arriving separately from the terminator `\n`
still yields the single logical line `OK`. -/
theorem C6_read_line_buffering :
    (∀ (term buf : List Char) (chunks : List (List Char)),
      sockReadLine term buf chunks = readLineStream term buf chunks.flatten) ∧
    (∀ (term bytes l : List Char), readLineStream term [] bytes = some l →
      ∃ used rest, bytes = used ++ rest ∧ used = l ++ term) ∧
    sockReadLine "\n".data [] ["OK".data, "\n".data] = some "OK".data := by
  refine ⟨?_, ?_, by decide⟩
  · intro term buf chunks
    exact sockReadLine_eq_stream term chunks buf
  · intro term bytes l h
    obtain ⟨used, rest, hb, hu⟩ := readLineStream_sound term bytes [] l h
    exact ⟨used, rest, hb, by simpa using hu⟩

/-- C6 witness: the returned line `OK` plus the terminator is exactly the
consumed prefix of the stream `OK\n`. -/
theorem C6_witness :
    ∃ used rest, "OK\n".data = used ++ rest ∧ used = "OK".data ++ "\n".data :=
  C6_read_line_buffering.2.1 "\n".data "OK\n".data "OK".data (by decide)

/-- C7: a bool property with true-token `1` and false-token `0` decodes the
response `0` to `false` and `1` to `true`, fails with `DecodeError` on every
other response token, and setting it to `true` emits exactly the line
`<CMD> 1`. -/
theorem C7_bool_property_tokens :
    (∀ (cmd : String) (sent rest : List String),
      bool_property_get ⟨cmd, "1", "0"⟩ ⟨sent, "0" :: rest⟩ =
        (.ok false, ⟨sent ++ [cmd ++ "?"], rest⟩)) ∧
    (∀ (cmd : String) (sent rest : List String),
      bool_property_get ⟨cmd, "1", "0"⟩ ⟨sent, "1" :: rest⟩ =
        (.ok true, ⟨sent ++ [cmd ++ "?"], rest⟩)) ∧
    (∀ (cmd r : String) (sent rest : List String), r ≠ "1" → r ≠ "0" →
      bool_property_get ⟨cmd, "1", "0"⟩ ⟨sent, r :: rest⟩ =
        (.error .decodeError, ⟨sent ++ [cmd ++ "?"], rest⟩)) ∧
    (∀ (cmd : String) (s : CommState),
      bool_property_set ⟨cmd, "1", "0"⟩ (.pyBool true) s =
        { s with sent := s.sent ++ [cmd ++ " " ++ "1"] }) := by
  refine ⟨?_, ?_, ?_, ?_⟩
  · intro cmd sent rest
    simp [bool_property_get, queryLine]
  · intro cmd sent rest
    simp [bool_property_get, queryLine]
  · intro cmd r sent rest h1 h0
    simp [bool_property_get, queryLine, h1, h0]
  · intro cmd s
    rfl

/-- C7 witness: the token table at work — `0` decodes to `false`, the
unrecognised token `2` fails with `DecodeError`, and setting `true` sends
`OUT 1`. -/
theorem C7_witness :
    bool_property_get ⟨"OUT", "1", "0"⟩ ⟨[], ["0"]⟩ = (.ok false, ⟨["OUT?"], []⟩) ∧
    bool_property_get ⟨"OUT", "1", "0"⟩ ⟨[], ["2"]⟩ =
      (.error .decodeError, ⟨["OUT?"], []⟩) ∧
    bool_property_set ⟨"OUT", "1", "0"⟩ (.pyBool true) ⟨[], []⟩ = ⟨["OUT 1"], []⟩ := by
  refine ⟨?_, ?_, ?_⟩
  · have h := C7_bool_property_tokens.1 "OUT" [] []
    simpa using h
  · have h := C7_bool_property_tokens.2.2.1 "OUT" "2" [] [] (by decide) (by decide)
    simpa using h
  · have h := C7_bool_property_tokens.2.2.2 "OUT" ⟨[], []⟩
    simpa using h

/-- C8: for every unit-bearing binding and every value already in the
binding's declared unit, decoding the encoded wire text returns the value
exactly — the decimal encoding is exact and the declared default unit is
reattached, so `decode (encode value) = value` with no truncation. -/
theorem C8_unitful_roundtrip (b : UnitfulBinding) (d : Dec) :
    unitfulDecode b (unitfulEncode ⟨d, b.units⟩) = some ⟨d, b.units⟩ := by
  rw [unitfulEncode, unitfulDecode, splitOnFirst_none (format_no_space d), parseDec_format]
  rfl

/-- C9: `bounded_unitful_property` returns a triple — the value accessors
plus a readable minimum and a readable maximum: a bound fixed at binding
time is returned as a quantity in the declared unit without I/O, and a
queried bound issues the live `<cmd>:MIN?`/`<cmd>:MAX?` query and decodes
the instrument's decimal response in the declared unit. -/
theorem C9_bounded_property_triple (b : BoundedBinding) :
    bounded_unitful_property b =
      ((bounded_unitful_property_get b, bounded_unitful_property_set b),
        boundGetter b.units (b.cmd ++ ":MIN?") b.loSpec,
        boundGetter b.units (b.cmd ++ ":MAX?") b.hiSpec) ∧
    (∀ q, b.loSpec = .fixed q →
      ∀ s, (bounded_unitful_property b).2.1 s = (.ok ⟨q, b.units⟩, s)) ∧
    (∀ q, b.hiSpec = .fixed q →
      ∀ s, (bounded_unitful_property b).2.2 s = (.ok ⟨q, b.units⟩, s)) ∧
    (b.loSpec = .queried → ∀ (sent : List String) (d : Dec) (rest : List String),
      (bounded_unitful_property b).2.1 ⟨sent, Dec.formatString d :: rest⟩ =
        (.ok ⟨d, b.units⟩, ⟨sent ++ [b.cmd ++ ":MIN?"], rest⟩)) ∧
    (b.hiSpec = .queried → ∀ (sent : List String) (d : Dec) (rest : List String),
      (bounded_unitful_property b).2.2 ⟨sent, Dec.formatString d :: rest⟩ =
        (.ok ⟨d, b.units⟩, ⟨sent ++ [b.cmd ++ ":MAX?"], rest⟩)) := by
  have hdec : ∀ (u cq : String) (d : Dec),
      unitfulDecode ⟨cq, u⟩ (Dec.formatString d).data = some ⟨d, u⟩ := by
    intro u cq d
    rw [Dec.formatString]
    show unitfulDecode ⟨cq, u⟩ d.format = some ⟨d, u⟩
    rw [unitfulDecode, splitOnFirst_none (format_no_space d), parseDec_format]
    rfl
  refine ⟨rfl, ?_, ?_, ?_, ?_⟩
  · intro q hq s
    simp [bounded_unitful_property, boundGetter, hq]
  · intro q hq s
    simp [bounded_unitful_property, boundGetter, hq]
  · intro hq sent d rest
    simp only [bounded_unitful_property, boundGetter, hq, queryLine]
    rw [hdec b.units (b.cmd ++ ":MIN?") d]
  · intro hq sent d rest
    simp only [bounded_unitful_property, boundGetter, hq, queryLine]
    rw [hdec b.units (b.cmd ++ ":MAX?") d]

/-- C9 witness: a binding with a fixed minimum of 0 V and a live-queried
maximum — the minimum is readable without I/O, the maximum is read by
sending `VOLT:MAX?` and decoding the response `10.0`. -/
theorem C9_witness :
    (bounded_unitful_property
      ⟨"VOLT", "V", ⟨0, 0⟩, ⟨10, 0⟩, .fixed ⟨0, 0⟩, .queried⟩).2.1 ⟨[], []⟩ =
      (.ok ⟨⟨0, 0⟩, "V"⟩, ⟨[], []⟩) ∧
    (bounded_unitful_property
      ⟨"VOLT", "V", ⟨0, 0⟩, ⟨10, 0⟩, .fixed ⟨0, 0⟩, .queried⟩).2.2 ⟨[], ["10.0"]⟩ =
      (.ok ⟨⟨100, 1⟩, "V"⟩, ⟨["VOLT:MAX?"], []⟩) := by
  constructor
  · exact (C9_bounded_property_triple _).2.1 ⟨0, 0⟩ rfl ⟨[], []⟩
  · have h := (C9_bounded_property_triple
      ⟨"VOLT", "V", ⟨0, 0⟩, ⟨10, 0⟩, .fixed ⟨0, 0⟩, .queried⟩).2.2.2.2 rfl [] ⟨100, 1⟩ []
    have hfmt : Dec.formatString ⟨100, 1⟩ = "10.0" := by decide
    rw [hfmt] at h
    simpa using h

/-- C10: the bool-property setter is permissive: the input value is first
converted with Python truthiness, so every truthy value — not only the
literal `True` — emits the configured true token, and every falsey value
emits the configured false token. -/
theorem C10_bool_set_truthiness (b : BoolBinding) (v : PyVal) (s : CommState) :
    (truthy v = true → bool_property_set b v s =
      { s with sent := s.sent ++ [b.cmd ++ " " ++ b.instTrue] }) ∧
    (truthy v = false → bool_property_set b v s =
      { s with sent := s.sent ++ [b.cmd ++ " " ++ b.instFalse] }) := by
  constructor
  · intro h
    simp [bool_property_set, sendcmdLine, h]
  · intro h
    simp [bool_property_set, sendcmdLine, h]

/-- C10 witness: the truthy integer 2 — not the literal `True` — emits the
true token, and the falsey empty string emits the false token. -/
theorem C10_witness :
    bool_property_set ⟨"OUT", "1", "0"⟩ (.pyInt 2) ⟨[], []⟩ = ⟨["OUT 1"], []⟩ ∧
    bool_property_set ⟨"OUT", "1", "0"⟩ (.pyStr "") ⟨[], []⟩ = ⟨["OUT 0"], []⟩ := by
  constructor
  · have h := (C10_bool_set_truthiness ⟨"OUT", "1", "0"⟩ (.pyInt 2) ⟨[], []⟩).1 (by decide)
    simpa using h
  · have h := (C10_bool_set_truthiness ⟨"OUT", "1", "0"⟩ (.pyStr "") ⟨[], []⟩).2 (by decide)
    simpa using h

theorem append_singleton_ne (l : List String) (a : String) : l ++ [a] ≠ l := by
  intro hc
  have hlen := congrArg List.length hc
  simp at hlen

/-- C1 (amended): out-of-range input to a bounded unit-bearing set fails with
`ValidationError` before any I/O — zero outbound lines, Communicator state
unchanged — and `ValidationError` and `IndexError` are the only errors the
core raises without any I/O: every other error is preceded by at least one
outbound transmission. -/
theorem C1_validation_before_io :
    (∀ (b : BoundedBinding) (v : Dec) (s : CommState),
      (Dec.le b.lo v && Dec.le v b.hi) = false →
      bounded_unitful_property_set b v s = (.error .validationError, s)) ∧
    (∀ (op : CoreOp) (s : CommState) (e : IKError) (s' : CommState),
      runOp op s = (.error e, s') → s'.sent = s.sent →
      e = .validationError ∨ e = .indexError) := by
  constructor
  · intro b v s h
    simp [bounded_unitful_property_set, h]
  · intro op s e s' h hsent
    cases op with
    | opBoundedSet b v =>
      by_cases hc : (Dec.le b.lo v && Dec.le v b.hi) = true
      · rw [runOp] at h
        rw [bounded_unitful_property_set] at h
        rw [if_pos hc] at h
        simp [Except.map] at h
      · rw [runOp] at h
        rw [bounded_unitful_property_set] at h
        rw [if_neg hc] at h
        simp [Except.map] at h
        exact Or.inl h.1.symm
    | opBoundedGet b =>
      exfalso
      cases hscr : s.script with
      | nil =>
        simp only [runOp, bounded_unitful_property_get, unitful_property_get,
          queryLine, hscr, sendcmdLine, Except.map] at h
        rw [Prod.mk.injEq] at h
        rw [← h.2] at hsent
        exact append_singleton_ne _ _ hsent
      | cons r rest =>
        simp only [runOp, bounded_unitful_property_get, unitful_property_get,
          queryLine, hscr, Except.map] at h
        cases hdec : unitfulDecode ⟨b.cmd, b.units⟩ r.data with
        | none =>
          rw [hdec] at h
          simp only [Except.map] at h
          rw [Prod.mk.injEq] at h
          rw [← h.2] at hsent
          exact append_singleton_ne _ _ hsent
        | some q =>
          rw [hdec] at h
          simp [Except.map] at h
    | opBoundMin b =>
      cases hsp : b.loSpec with
      | fixed q =>
        simp only [runOp, boundGetter, hsp, Except.map] at h
        simp at h
      | queried =>
        exfalso
        cases hscr : s.script with
        | nil =>
          simp only [runOp, boundGetter, hsp, queryLine, hscr, sendcmdLine,
            Except.map] at h
          rw [Prod.mk.injEq] at h
          rw [← h.2] at hsent
          exact append_singleton_ne _ _ hsent
        | cons r rest =>
          simp only [runOp, boundGetter, hsp, queryLine, hscr, Except.map] at h
          cases hdec : unitfulDecode ⟨b.cmd ++ ":MIN?", b.units⟩ r.data with
          | none =>
            rw [hdec] at h
            simp only [Except.map] at h
            rw [Prod.mk.injEq] at h
            rw [← h.2] at hsent
            exact append_singleton_ne _ _ hsent
          | some q =>
            rw [hdec] at h
            simp [Except.map] at h
    | opBoundMax b =>
      cases hsp : b.hiSpec with
      | fixed q =>
        simp only [runOp, boundGetter, hsp, Except.map] at h
        simp at h
      | queried =>
        exfalso
        cases hscr : s.script with
        | nil =>
          simp only [runOp, boundGetter, hsp, queryLine, hscr, sendcmdLine,
            Except.map] at h
          rw [Prod.mk.injEq] at h
          rw [← h.2] at hsent
          exact append_singleton_ne _ _ hsent
        | cons r rest =>
          simp only [runOp, boundGetter, hsp, queryLine, hscr, Except.map] at h
          cases hdec : unitfulDecode ⟨b.cmd ++ ":MAX?", b.units⟩ r.data with
          | none =>
            rw [hdec] at h
            simp only [Except.map] at h
            rw [Prod.mk.injEq] at h
            rw [← h.2] at hsent
            exact append_singleton_ne _ _ hsent
          | some q =>
            rw [hdec] at h
            simp [Except.map] at h
    | opUnitfulGet b =>
      exfalso
      cases hscr : s.script with
      | nil =>
        simp only [runOp, unitful_property_get, queryLine, hscr, sendcmdLine,
          Except.map] at h
        rw [Prod.mk.injEq] at h
        rw [← h.2] at hsent
        exact append_singleton_ne _ _ hsent
      | cons r rest =>
        simp only [runOp, unitful_property_get, queryLine, hscr, Except.map] at h
        cases hdec : unitfulDecode b r.data with
        | none =>
          rw [hdec] at h
          simp only [Except.map] at h
          rw [Prod.mk.injEq] at h
          rw [← h.2] at hsent
          exact append_singleton_ne _ _ hsent
        | some q =>
          rw [hdec] at h
          simp [Except.map] at h
    | opUnitfulSet b v =>
      simp [runOp] at h
    | opBoolGet b =>
      exfalso
      cases hscr : s.script with
      | nil =>
        simp only [runOp, bool_property_get, queryLine, hscr, sendcmdLine,
          Except.map] at h
        rw [Prod.mk.injEq] at h
        rw [← h.2] at hsent
        exact append_singleton_ne _ _ hsent
      | cons r rest =>
        simp only [runOp, bool_property_get, queryLine, hscr, Except.map] at h
        by_cases h1 : r = b.instTrue
        · rw [if_pos h1] at h
          simp [Except.map] at h
        · rw [if_neg h1] at h
          by_cases h0 : r = b.instFalse
          · rw [if_pos h0] at h
            simp [Except.map] at h
          · rw [if_neg h0] at h
            simp only [Except.map] at h
            rw [Prod.mk.injEq] at h
            rw [← h.2] at hsent
            exact append_singleton_ne _ _ hsent
    | opBoolSet b v =>
      simp [runOp] at h
    | opResolve p vs idx =>
      cases vs with
      | contiguous n =>
        cases idx with
        | num i =>
          by_cases hi : i < n
          · simp [runOp, ProxyList.resolve, hi, Except.map] at h
          · simp only [runOp, ProxyList.resolve, if_neg hi, Except.map] at h
            rw [Prod.mk.injEq] at h
            exact Or.inr (Except.error.inj h.1).symm
        | label t =>
          simp only [runOp, ProxyList.resolve, Except.map] at h
          rw [Prod.mk.injEq] at h
          exact Or.inr (Except.error.inj h.1).symm
      | labels ls =>
        cases idx with
        | num i =>
          simp only [runOp, ProxyList.resolve, Except.map] at h
          rw [Prod.mk.injEq] at h
          exact Or.inr (Except.error.inj h.1).symm
        | label t =>
          by_cases ht : t ∈ ls
          · simp [runOp, ProxyList.resolve, ht, Except.map] at h
          · simp only [runOp, ProxyList.resolve, if_neg ht, Except.map] at h
            rw [Prod.mk.injEq] at h
            exact Or.inr (Except.error.inj h.1).symm
    | opQuery line =>
      exfalso
      cases hscr : s.script with
      | nil =>
        simp only [runOp, queryLine, hscr, sendcmdLine] at h
        rw [Prod.mk.injEq] at h
        rw [← h.2] at hsent
        exact append_singleton_ne _ _ hsent
      | cons r rest =>
        simp [runOp, queryLine, hscr] at h
    | opSendcmd line =>
      simp [runOp] at h

/-- C1 counterexample: resolving an out-of-range sub-device index raises
`IndexError` with zero outbound transmissions and the Communicator state
unchanged, so `ValidationError` is not the only error the core raises
without any I/O. -/
theorem C1_counterexample :
    runOp (.opResolve 0 (.contiguous 2) (.num 5)) ⟨[], []⟩ =
      (.error .indexError, ⟨[], []⟩) ∧
    (⟨[], []⟩ : CommState).sent = (⟨[], []⟩ : CommState).sent ∧
    IKError.indexError ≠ IKError.validationError := by
  refine ⟨by rfl, rfl, by decide⟩

/-- C1 witness: setting 11 V on a property bounded to [0 V, 10 V] raises
`ValidationError` and leaves the harness transcript empty. -/
theorem C1_witness :
    bounded_unitful_property_set
      ⟨"VOLT", "V", ⟨0, 0⟩, ⟨10, 0⟩, .fixed ⟨0, 0⟩, .fixed ⟨10, 0⟩⟩ ⟨11, 0⟩ ⟨[], []⟩ =
      (.error .validationError, ⟨[], []⟩) :=
  C1_validation_before_io.1
    ⟨"VOLT", "V", ⟨0, 0⟩, ⟨10, 0⟩, .fixed ⟨0, 0⟩, .fixed ⟨10, 0⟩⟩ ⟨11, 0⟩ ⟨[], []⟩
    (by decide)

/-- Positional reading of a well-formed chunk log: every terminator chunk is
immediately followed (in the newest-first log, i.e. immediately preceded in
time) by the same caller's payload chunk — no other caller's bytes sit
between the two chunks of any line. -/
theorem chunkLog_adjacent {l : List (Nat × Bool)} (h : ChunkLog l) :
    ∀ k i, l[k]? = some (i, true) → l[k + 1]? = some (i, false) := by
  induction h with
  | nil => intro k i hk; simp at hk
  | pair j t ht ih =>
    intro k i hk
    rcases k with _ | _ | k
    · simp only [List.getElem?_cons_zero, Option.some.injEq, Prod.mk.injEq] at hk
      obtain ⟨rfl, -⟩ := hk
      simp
    · simp at hk
    · simp only [List.getElem?_cons_succ] at hk ⊢
      exact ih k i hk
  | aborted j t ht ih =>
    intro k i hk
    rcases k with _ | k
    · simp at hk
    · simp only [List.getElem?_cons_succ] at hk ⊢
      exact ih k i hk

/-- C2: on every reachable state of the locked Communicator: (a) two
distinct callers are never both inside a `query`/`sendcmd` critical section;
(b) the backend's outbound bytes never interleave two transactions: every
terminator chunk immediately follows the same caller's payload chunk, with
no other caller's bytes between them; (c) the whole log decomposes into
per-caller contiguous blocks — completed payload+terminator lines and lone
aborted payload chunks of failed sends; (d) a lock holder can always take a
step, so every transaction reaches its release; (e) a holder whose
`send_line` failed — on either chunk write — releases the lock directly,
and (f) so does a holder whose read finished, successfully or not; (g) a
finished caller never holds the lock. -/
theorem C2_query_exclusive_lock (kinds : Nat → TxnKind) (s : LockSys)
    (hr : LockReach kinds s) :
    (∀ i j, i ≠ j → inCS (s.callers i) → inCS (s.callers j) → False) ∧
    (∀ k i, s.log[k]? = some (i, true) → s.log[k + 1]? = some (i, false)) ∧
    ChunkLog s.log ∧
    (∀ i, s.lock = some i → ∃ s', LockStep s s') ∧
    (∀ i, s.lock = some i → (s.callers i).phase = .sendFailed →
      LockStep s { s with
                    lock := none
                    callers := Function.update s.callers i
                      ⟨(s.callers i).kind, .finished⟩ }) ∧
    (∀ i ok, s.lock = some i → (s.callers i).phase = .readFinished ok →
      LockStep s { s with
                    lock := none
                    callers := Function.update s.callers i
                      ⟨(s.callers i).kind, .finished⟩ }) ∧
    (∀ i, (s.callers i).phase = .finished → s.lock ≠ some i) := by
  obtain ⟨hcs, hlog⟩ := lockInv_reach hr
  have hchunk : ChunkLog s.log := by
    unfold logOk at hlog
    cases hls : s.lock with
    | none =>
      rw [hls] at hlog
      exact hlog
    | some i =>
      rw [hls] at hlog
      have hlog2 : if (s.callers i).phase = Phase.wrotePayload
          then ∃ l, s.log = (i, false) :: l ∧ ChunkLog l
          else ChunkLog s.log := hlog
      by_cases hph : (s.callers i).phase = .wrotePayload
      · rw [if_pos hph] at hlog2
        obtain ⟨l, hleq, hcl⟩ := hlog2
        rw [hleq]
        exact ChunkLog.aborted i l hcl
      · rw [if_neg hph] at hlog2
        exact hlog2
  refine ⟨?_, chunkLog_adjacent hchunk, hchunk, ?_, ?_, ?_, ?_⟩
  · intro i j hij hi hj
    have h1 := (hcs i).mp hi
    have h2 := (hcs j).mp hj
    rw [h1] at h2
    exact hij (Option.some.inj h2)
  · intro i hl
    exact lock_progress ⟨hcs, hlog⟩ hl
  · intro i hl hp
    exact LockStep.releaseFailed s i hl hp
  · intro i ok hl hp
    exact LockStep.releaseQuery s i ok hl hp
  · intro i hp hl
    have hin := (hcs i).mpr hl
    unfold inCS at hin
    rw [hp] at hin
    rcases hin with h | h | h | h | ⟨ok, h⟩ <;> cases h

/-- C2 witness: two concrete runs of a two-caller system.  First, caller 0
completes a full query — acquire, payload chunk, terminator chunk, read,
release — leaving the lock free and its two adjacent chunks logged.  Second,
caller 0's terminator write fails after its payload chunk was written: the
caller still reaches release, the lock is free, and the lone aborted chunk
leaves the log well-formed. -/
theorem C2_witness :
    (∃ s : LockSys, LockReach (fun _ => TxnKind.queryK) s ∧
      s.lock = none ∧ s.log = [(0, true), (0, false)] ∧
      (s.callers 0).phase = .finished ∧ ChunkLog s.log) ∧
    (∃ s : LockSys, LockReach (fun _ => TxnKind.queryK) s ∧
      s.lock = none ∧ s.log = [(0, false)] ∧
      (s.callers 0).phase = .finished ∧ ChunkLog s.log) := by
  constructor
  · have r1 := Relation.ReflTransGen.tail (Relation.ReflTransGen.refl)
      (LockStep.acquire (lockInit (fun _ => TxnKind.queryK)) 0 rfl rfl)
    have r2 := Relation.ReflTransGen.tail r1 (LockStep.writePayload _ 0 rfl rfl)
    have r3 := Relation.ReflTransGen.tail r2 (LockStep.writeTerm _ 0 rfl rfl)
    have r4 := Relation.ReflTransGen.tail r3 (LockStep.readLine _ 0 true rfl rfl rfl)
    have r5 := Relation.ReflTransGen.tail r4 (LockStep.releaseQuery _ 0 true rfl rfl)
    refine ⟨_, r5, rfl, rfl, rfl, ?_⟩
    exact (C2_query_exclusive_lock (fun _ => TxnKind.queryK) _ r5).2.2.1
  · have q1 := Relation.ReflTransGen.tail (Relation.ReflTransGen.refl)
      (LockStep.acquire (lockInit (fun _ => TxnKind.queryK)) 0 rfl rfl)
    have q2 := Relation.ReflTransGen.tail q1 (LockStep.writePayload _ 0 rfl rfl)
    have q3 := Relation.ReflTransGen.tail q2 (LockStep.writeTermFail _ 0 rfl rfl)
    have q4 := Relation.ReflTransGen.tail q3 (LockStep.releaseFailed _ 0 rfl rfl)
    refine ⟨_, q4, rfl, rfl, rfl, ?_⟩
    exact (C2_query_exclusive_lock (fun _ => TxnKind.queryK) _ q4).2.2.1
